import Mathlib

/-!
# Verification of the solande core codec

Shallow embedding of `solande/core` (files `commitment.rs`, `nullifier.rs`,
`transaction.rs`, `unencrypted.rs`, `error.rs`, `prelude.rs`) and proofs of
the specification claims about it.

Bytes are modelled as `Fin 256`; Rust byte slices as `List Byte`.
`H256`/`H160` values (which are fixed-size byte arrays in `primitive_types`)
are modelled as `List Byte` together with a length side condition in the
validity predicates; `U256` and `u32` values are modelled as `Nat` with an
upper bound in the validity predicates.  Fallible Rust functions returning
`Result<T, Error>` are modelled as `Except Error T`; the one decoder that can
panic (`UnencryptedOutput::decode`, via `H256::from_slice` on an
arbitrary-length tail) is modelled with an explicit `panics` outcome.
-/

/-- Bytes as used by the wire format. -/
abbrev Byte := Fin 256

/-- The error enum of `error.rs`. -/
inductive Error where
  | FailedToDecode
  | UnsupportedCommitmentType
  | UnsupportedNullifierType
deriving DecidableEq, Repr

/-- Big-endian bytes of `n`, `w` bytes wide, least-significant byte last.
Models `U256::to_big_endian` (w = 32) and `u32::to_be_bytes` (w = 4); the
`as u16` cast plus `u16::to_be_bytes` in `Transaction::encode` is
`natToBE 2 (n % 2 ^ 16)`. -/
def natToBE : Nat → Nat → List Byte
  | 0, _ => []
  | w + 1, n => natToBE w (n / 256) ++ [⟨n % 256, Nat.mod_lt _ (by norm_num)⟩]

/-- Value of a big-endian byte string.  Models `U256::from_big_endian`,
`u32::from_be_bytes` and `u16::from_be_bytes`. -/
def beToNat : List Byte → Nat
  | [] => 0
  | b :: rest => b.val * 256 ^ rest.length + beToNat rest

/-- Transparent unspent output (`Output` in `commitment.rs`). -/
structure Output where
  amount : Nat
  asset : List Byte
  owner : List Byte
deriving DecidableEq, Repr

/-- A value that the Rust type system makes representable: `amount` is a
`U256`, `asset` an `H256` (32 bytes), `owner` an `H160` (20 bytes). -/
def Output.Valid (o : Output) : Prop :=
  o.amount < 2 ^ 256 ∧ o.asset.length = 32 ∧ o.owner.length = 20

instance (o : Output) : Decidable o.Valid := by
  unfold Output.Valid; infer_instance

/-- `UNSPENT_OUTPUT_BYTE_LENGTH` and the `ByteLength` impl for `Output`. -/
def Output.byte_length (_ : Output) : Nat := 84

/-- The `Encodeable` impl for `Output`. -/
def Output.encode (o : Output) : List Byte :=
  natToBE 32 o.amount ++ o.asset ++ o.owner

/-- The `Decodeable` impl for `Output`. -/
def Output.decode (bytes : List Byte) : Except Error Output :=
  if bytes.length < 84 then .error .FailedToDecode
  else .ok { amount := beToNat (bytes.take 32)
             asset := (bytes.drop 32).take 32
             owner := (bytes.drop 64).take 20 }

/-- Unique identifier of an output (`OutputId` in `nullifier.rs`). -/
structure OutputId where
  txhash : List Byte
  index : Nat
deriving DecidableEq, Repr

/-- Representable `OutputId`: `txhash` is an `H256`, `index` a `u32`. -/
def OutputId.Valid (oid : OutputId) : Prop :=
  oid.txhash.length = 32 ∧ oid.index < 2 ^ 32

instance (oid : OutputId) : Decidable oid.Valid := by
  unfold OutputId.Valid; infer_instance

/-- `OUTPUT_ID_BYTE_LENGTH` and the `ByteLength` impl for `OutputId`. -/
def OutputId.byte_length (_ : OutputId) : Nat := 36

/-- The `Encodeable` impl for `OutputId`. -/
def OutputId.encode (oid : OutputId) : List Byte :=
  oid.txhash ++ natToBE 4 oid.index

/-- The `Decodeable` impl for `OutputId`. -/
def OutputId.decode (bytes : List Byte) : Except Error OutputId :=
  if bytes.length < 36 then .error .FailedToDecode
  else .ok { txhash := bytes.take 32
             index := beToNat ((bytes.drop 32).take 4) }

/-- A private commitment represented by a 256-bit hash (`PrivateCommitment` in
`commitment.rs`). -/
structure PrivateCommitment where
  hash : List Byte
deriving DecidableEq, Repr

/-- Representable `PrivateCommitment`: the wrapped value is an `H256`. -/
def PrivateCommitment.Valid (c : PrivateCommitment) : Prop := c.hash.length = 32

instance (c : PrivateCommitment) : Decidable c.Valid := by
  unfold PrivateCommitment.Valid; infer_instance

/-- A commitment, either private or public (`Commitment` in `commitment.rs`). -/
inductive Commitment where
  | Private (c : PrivateCommitment)
  | Public (o : Output)
deriving DecidableEq, Repr

/-- Representable `Commitment`. -/
def Commitment.Valid : Commitment → Prop
  | .Private c => c.Valid
  | .Public o => o.Valid

instance (c : Commitment) : Decidable c.Valid := by
  cases c <;> unfold Commitment.Valid <;> infer_instance

/-- The `ByteLength` impl for `Commitment`. -/
def Commitment.byte_length : Commitment → Nat
  | .Private _ => 33
  | .Public o => o.byte_length + 1

/-- The `Encodeable` impl for `Commitment`. -/
def Commitment.encode : Commitment → List Byte
  | .Private c => (1 : Byte) :: c.hash
  | .Public o => (2 : Byte) :: o.encode

/-- The `Decodeable` impl for `Commitment`. -/
def Commitment.decode (bytes : List Byte) : Except Error Commitment :=
  match bytes with
  | [] => .error .FailedToDecode
  | b :: rest =>
    if b.val = 1 then
      if bytes.length < 33 then .error .FailedToDecode
      else .ok (.Private ⟨(bytes.drop 1).take 32⟩)
    else if b.val = 2 then
      match Output.decode rest with
      | .error e => .error e
      | .ok o => .ok (.Public o)
    else .error .UnsupportedCommitmentType

/-- A nullifier, either private or public (`Nullifier` in `nullifier.rs`).
The private payload is an `H256`, modelled as a byte list. -/
inductive Nullifier where
  | Private (h : List Byte)
  | Public (oid : OutputId)
deriving DecidableEq, Repr

/-- Representable `Nullifier`. -/
def Nullifier.Valid : Nullifier → Prop
  | .Private h => h.length = 32
  | .Public oid => oid.Valid

instance (n : Nullifier) : Decidable n.Valid := by
  cases n <;> unfold Nullifier.Valid <;> infer_instance

/-- The `ByteLength` impl for `Nullifier`. -/
def Nullifier.byte_length : Nullifier → Nat
  | .Private _ => 33
  | .Public oid => oid.byte_length + 1

/-- The `Encodeable` impl for `Nullifier`. -/
def Nullifier.encode : Nullifier → List Byte
  | .Private h => (1 : Byte) :: h
  | .Public oid => (2 : Byte) :: oid.encode

/-- The `Decodeable` impl for `Nullifier`. -/
def Nullifier.decode (bytes : List Byte) : Except Error Nullifier :=
  match bytes with
  | [] => .error .FailedToDecode
  | b :: rest =>
    if b.val = 1 then
      if bytes.length < 33 then .error .FailedToDecode
      else .ok (.Private ((bytes.drop 1).take 32))
    else if b.val = 2 then
      match OutputId.decode rest with
      | .error e => .error e
      | .ok oid => .ok (.Public oid)
    else .error .UnsupportedNullifierType

/-- Outcome of a Rust function that can either return `Ok`, return `Err`, or
panic.  Used for `UnencryptedOutput::decode`, whose call
`H256::from_slice(&bytes[output.byte_length()..])` panics whenever the tail
slice is not exactly 32 bytes long. -/
inductive PResult (α : Type) where
  | ok (a : α)
  | err (e : Error)
  | panics
deriving DecidableEq

/-- Unencrypted output plus its salt (`UnencryptedOutput` in `unencrypted.rs`). -/
structure UnencryptedOutput where
  output : Output
  salt : List Byte
deriving DecidableEq, Repr

/-- Representable `UnencryptedOutput`: the salt is an `H256`. -/
def UnencryptedOutput.Valid (u : UnencryptedOutput) : Prop :=
  u.output.Valid ∧ u.salt.length = 32

instance (u : UnencryptedOutput) : Decidable u.Valid := by
  unfold UnencryptedOutput.Valid; infer_instance

/-- The `ByteLength` impl for `UnencryptedOutput`. -/
def UnencryptedOutput.byte_length (u : UnencryptedOutput) : Nat :=
  u.output.byte_length + 32

/-- The `Encodeable` impl for `UnencryptedOutput`. -/
def UnencryptedOutput.encode (u : UnencryptedOutput) : List Byte :=
  u.output.encode ++ u.salt

/-- The `Decodeable` impl for `UnencryptedOutput`.  The Rust body is
`let output = Output::decode(bytes)?;
 let salt = H256::from_slice(&bytes[output.byte_length()..]);`
`H256::from_slice` asserts that its argument is exactly 32 bytes and panics
otherwise, which the `panics` outcome records. -/
def UnencryptedOutput.decode (bytes : List Byte) : PResult UnencryptedOutput :=
  match Output.decode bytes with
  | .error e => .err e
  | .ok output =>
    let tail := bytes.drop output.byte_length
    if tail.length = 32 then .ok { output := output, salt := tail }
    else .panics

/-- Hasher state of the `digest::Digest` API: the bytes fed to `update` so
far.  `D.new()` starts empty, `update` appends, `finalize` applies the digest
function to everything fed. -/
def Hasher.new : List Byte := []

/-- `Digest::update`: absorb more bytes. -/
def Hasher.update (h : List Byte) (l : List Byte) : List Byte := h ++ l

/-- `Digest::finalize`: apply the digest function `D` to the absorbed bytes. -/
def Hasher.finalize (D : List Byte → List Byte) (h : List Byte) : List Byte := D h

/-- `H256::from_slice`, total version: `some` exactly when the slice is 32
bytes (the Rust function panics otherwise). -/
def H256.from_slice (l : List Byte) : Option (List Byte) :=
  if l.length = 32 then some l else none

/-- `Output::commitment::<D>(salt)` from `commitment.rs`: feed the 32-byte
big-endian amount, the asset, the owner and the salt to the hasher, finalize,
and wrap the digest through `H256::from_slice` (`none` models the panic when
the digest is not 32 bytes). -/
def Output.commitment (D : List Byte → List Byte) (o : Output) (salt : List Byte) :
    Option PrivateCommitment :=
  (H256.from_slice
    (Hasher.finalize D
      (Hasher.update
        (Hasher.update
          (Hasher.update
            (Hasher.update Hasher.new (natToBE 32 o.amount))
            o.asset)
          o.owner)
        salt))).map PrivateCommitment.mk

/-- `PrivateCommitment::nullifier::<D>(salt)` from `commitment.rs`: feed the
32-byte commitment hash and the salt to the hasher and finalize. -/
def PrivateCommitment.nullifier (D : List Byte → List Byte) (c : PrivateCommitment)
    (salt : List Byte) : Option (List Byte) :=
  H256.from_slice
    (Hasher.finalize D (Hasher.update (Hasher.update Hasher.new c.hash) salt))

/-- Transaction (`transaction.rs`). -/
structure Transaction where
  inputs : List Nullifier
  outputs : List Commitment
deriving DecidableEq, Repr

/-- Representable `Transaction` whose `u16` count casts in `encode` are
lossless: every element is representable and both `Vec` lengths fit a `u16`. -/
def Transaction.Valid (t : Transaction) : Prop :=
  t.inputs.length ≤ 65535 ∧ t.outputs.length ≤ 65535 ∧
    (∀ n ∈ t.inputs, n.Valid) ∧ (∀ c ∈ t.outputs, c.Valid)

instance (t : Transaction) : Decidable t.Valid := by
  unfold Transaction.Valid; infer_instance

/-- Concatenation of the encodings of a list of elements, as produced by the
`for` loops of `Transaction::encode`. -/
def encodeList (enc : α → List Byte) : List α → List Byte
  | [] => []
  | x :: xs => enc x ++ encodeList enc xs

/-- The `Encodeable` impl for `Transaction`: 2-byte big-endian input count
(the `len() as u16` cast reduces the length mod 2^16), the inputs, 2-byte
big-endian output count, the outputs. -/
def Transaction.encode (t : Transaction) : List Byte :=
  natToBE 2 (t.inputs.length % 2 ^ 16) ++ encodeList Nullifier.encode t.inputs
    ++ natToBE 2 (t.outputs.length % 2 ^ 16) ++ encodeList Commitment.encode t.outputs

/-- The `ByteLength` impl for `Transaction`: sum of the element byte lengths,
with no term for the two count fields. -/
def Transaction.byte_length (t : Transaction) : Nat :=
  (t.inputs.map Nullifier.byte_length).sum + (t.outputs.map Commitment.byte_length).sum

/-- The first `for` loop of `Transaction::decode`: decode `count` nullifiers,
advancing the cursor by each decoded value's `byte_length()`; the returned
list pairs with the suffix at the final cursor. -/
def decodeNullifiers : Nat → List Byte → Except Error (List Nullifier × List Byte)
  | 0, bs => .ok ([], bs)
  | count + 1, bs =>
    match Nullifier.decode bs with
    | .error e => .error e
    | .ok input =>
      match decodeNullifiers count (bs.drop input.byte_length) with
      | .error e => .error e
      | .ok (rest, rem) => .ok (input :: rest, rem)

/-- The second `for` loop of `Transaction::decode`, for commitments. -/
def decodeCommitments : Nat → List Byte → Except Error (List Commitment × List Byte)
  | 0, bs => .ok ([], bs)
  | count + 1, bs =>
    match Commitment.decode bs with
    | .error e => .error e
    | .ok output =>
      match decodeCommitments count (bs.drop output.byte_length) with
      | .error e => .error e
      | .ok (rest, rem) => .ok (output :: rest, rem)

/-- The `Decodeable` impl for `Transaction`: read the 2-byte input count,
decode that many nullifiers, read the 2-byte output count at the cursor,
decode that many commitments; trailing bytes are ignored. -/
def Transaction.decode (bytes : List Byte) : Except Error Transaction :=
  if bytes.length < 2 then .error .FailedToDecode
  else
    match decodeNullifiers (beToNat (bytes.take 2)) (bytes.drop 2) with
    | .error e => .error e
    | .ok (inputs, rem) =>
      if rem.length < 2 then .error .FailedToDecode
      else
        match decodeCommitments (beToNat (rem.take 2)) (rem.drop 2) with
        | .error e => .error e
        | .ok (outputs, _) => .ok { inputs := inputs, outputs := outputs }

/-- Transaction with 65536 inputs, exhibiting the `u16` count overflow of
`Transaction::encode`. -/
def tBig : Transaction :=
  ⟨List.replicate 65536 (Nullifier.Private (List.replicate 32 0)), []⟩

/-- Sample output used to witness claim theorems at concrete inputs. -/
def oSample : Output :=
  { amount := 1000, asset := List.replicate 32 1, owner := List.replicate 20 2 }

/-- Sample output id used to witness claim theorems at concrete inputs. -/
def oidSample : OutputId := { txhash := List.replicate 32 3, index := 7 }

/-- Sample private commitment used to witness claim theorems. -/
def pcSample : PrivateCommitment := ⟨List.replicate 32 4⟩

/-- Sample nullifier used to witness claim theorems. -/
def nSample : Nullifier := .Public oidSample

/-- Sample commitment used to witness claim theorems. -/
def cSample : Commitment := .Public oSample

/-- Sample transaction used to witness claim theorems. -/
def tSample : Transaction :=
  ⟨[nSample, .Private (List.replicate 32 5)], [cSample, .Private pcSample]⟩

/-- Sample unencrypted output used to witness claim theorems. -/
def uSample : UnencryptedOutput := ⟨oSample, List.replicate 32 6⟩

theorem natToBE_length (w n : Nat) : (natToBE w n).length = w := by
  induction w generalizing n with
  | zero => rfl
  | succ k ih => simp [natToBE, ih]

theorem beToNat_lt (l : List Byte) : beToNat l < 256 ^ l.length := by
  induction l with
  | nil => simp [beToNat]
  | cons b rest ih =>
    simp only [beToNat, List.length_cons, pow_succ]
    have hb : b.val ≤ 255 := Nat.lt_succ_iff.mp b.isLt
    calc b.val * 256 ^ rest.length + beToNat rest
        < b.val * 256 ^ rest.length + 256 ^ rest.length := by omega
      _ = (b.val + 1) * 256 ^ rest.length := by ring
      _ ≤ 256 * 256 ^ rest.length := by
          exact Nat.mul_le_mul_right _ (by omega)
      _ = 256 ^ rest.length * 256 := by ring

theorem beToNat_append_singleton (l : List Byte) (b : Byte) :
    beToNat (l ++ [b]) = beToNat l * 256 + b.val := by
  induction l with
  | nil => simp [beToNat]
  | cons c rest ih =>
    have h1 : beToNat ((c :: rest) ++ [b])
        = c.val * 256 ^ (rest ++ [b]).length + beToNat (rest ++ [b]) := rfl
    have h2 : beToNat (c :: rest) = c.val * 256 ^ rest.length + beToNat rest := rfl
    have h3 : (rest ++ [b]).length = rest.length + 1 := by simp
    rw [h1, h2, ih, h3, pow_succ]
    ring

theorem beToNat_natToBE (w n : Nat) : beToNat (natToBE w n) = n % 256 ^ w := by
  induction w generalizing n with
  | zero => simp [natToBE, beToNat, Nat.mod_one]
  | succ k ih =>
    rw [natToBE, beToNat_append_singleton, ih]
    have h256 : (256 : Nat) ^ (k + 1) = 256 * 256 ^ k := by ring
    rw [h256, Nat.mod_mul]
    ring

theorem beToNat_natToBE_of_lt {w n : Nat} (h : n < 256 ^ w) :
    beToNat (natToBE w n) = n := by
  rw [beToNat_natToBE, Nat.mod_eq_of_lt h]

theorem output_encode_length {o : Output} (h : o.Valid) :
    o.encode.length = 84 := by
  obtain ⟨_, ha, hw⟩ := h
  simp [Output.encode, natToBE_length, ha, hw]

theorem output_decode_encode (o : Output) (h : o.Valid) (extra : List Byte) :
    Output.decode (o.encode ++ extra) = .ok o := by
  obtain ⟨ham, ha, hw⟩ := h
  have hlen : (o.encode ++ extra).length = 84 + extra.length := by
    simp [output_encode_length ⟨ham, ha, hw⟩]
  have h32 : (natToBE 32 o.amount).length = 32 := natToBE_length _ _
  have hshape : o.encode ++ extra = natToBE 32 o.amount ++ (o.asset ++ (o.owner ++ extra)) := by
    simp [Output.encode]
  have hshape64 : o.encode ++ extra
      = (natToBE 32 o.amount ++ o.asset) ++ (o.owner ++ extra) := by
    simp [Output.encode]
  have e1 : (o.encode ++ extra).take 32 = natToBE 32 o.amount := by
    rw [hshape, List.take_left' h32]
  have e2 : ((o.encode ++ extra).drop 32).take 32 = o.asset := by
    rw [hshape, List.drop_left' h32, List.take_left' ha]
  have e3 : ((o.encode ++ extra).drop 64).take 20 = o.owner := by
    rw [hshape64, List.drop_left' (by simp [h32, ha]), List.take_left' hw]
  have ham' : o.amount < 256 ^ 32 := by norm_num at ham ⊢; omega
  simp only [Output.decode, if_neg (show ¬(o.encode ++ extra).length < 84 by omega),
    e1, e2, e3, beToNat_natToBE_of_lt ham']

theorem outputId_encode_length {oid : OutputId} (h : oid.Valid) :
    oid.encode.length = 36 := by
  simp [OutputId.encode, natToBE_length, h.1]

theorem outputId_decode_encode (oid : OutputId) (h : oid.Valid) (extra : List Byte) :
    OutputId.decode (oid.encode ++ extra) = .ok oid := by
  obtain ⟨ht, hi⟩ := h
  have hlen : (oid.encode ++ extra).length = 36 + extra.length := by
    simp [outputId_encode_length ⟨ht, hi⟩]
  have hshape : oid.encode ++ extra = oid.txhash ++ (natToBE 4 oid.index ++ extra) := by
    simp [OutputId.encode]
  have h4 : (natToBE 4 oid.index).length = 4 := natToBE_length _ _
  have hi' : oid.index < 256 ^ 4 := by norm_num at hi ⊢; omega
  have e1 : (oid.encode ++ extra).take 32 = oid.txhash := by
    rw [hshape, List.take_left' ht]
  have e2 : ((oid.encode ++ extra).drop 32).take 4 = natToBE 4 oid.index := by
    rw [hshape, List.drop_left' ht, List.take_left' h4]
  simp only [OutputId.decode, if_neg (show ¬(oid.encode ++ extra).length < 36 by omega),
    e1, e2, beToNat_natToBE_of_lt hi']

theorem commitment_decode_cons (b : Byte) (rest : List Byte) :
    Commitment.decode (b :: rest)
      = if b.val = 1 then
          (if (b :: rest).length < 33 then .error .FailedToDecode
           else .ok (.Private ⟨((b :: rest).drop 1).take 32⟩))
        else if b.val = 2 then
          (match Output.decode rest with
           | .error e => .error e
           | .ok o => .ok (.Public o))
        else .error .UnsupportedCommitmentType := rfl

theorem nullifier_decode_cons (b : Byte) (rest : List Byte) :
    Nullifier.decode (b :: rest)
      = if b.val = 1 then
          (if (b :: rest).length < 33 then .error .FailedToDecode
           else .ok (.Private (((b :: rest).drop 1).take 32)))
        else if b.val = 2 then
          (match OutputId.decode rest with
           | .error e => .error e
           | .ok oid => .ok (.Public oid))
        else .error .UnsupportedNullifierType := rfl

theorem commitment_encode_length {c : Commitment} (h : c.Valid) :
    c.encode.length = c.byte_length := by
  cases c with
  | Private pc =>
    have hl : pc.hash.length = 32 := h
    simp [Commitment.encode, Commitment.byte_length, hl]
  | Public o =>
    have ho : o.Valid := h
    simp [Commitment.encode, Commitment.byte_length, Output.byte_length,
      output_encode_length ho]

theorem nullifier_encode_length {n : Nullifier} (h : n.Valid) :
    n.encode.length = n.byte_length := by
  cases n with
  | Private hh =>
    have hl : hh.length = 32 := h
    simp [Nullifier.encode, Nullifier.byte_length, hl]
  | Public oid =>
    have ho : oid.Valid := h
    simp [Nullifier.encode, Nullifier.byte_length, OutputId.byte_length,
      outputId_encode_length ho]

theorem commitment_decode_encode (c : Commitment) (h : c.Valid) (extra : List Byte) :
    Commitment.decode (c.encode ++ extra) = .ok c := by
  cases c with
  | Private pc =>
    have hl : pc.hash.length = 32 := h
    have hcons : Commitment.encode (.Private pc) ++ extra
        = (1 : Byte) :: (pc.hash ++ extra) := by
      simp [Commitment.encode]
    rw [hcons, commitment_decode_cons, if_pos (show ((1 : Byte) : Byte).val = 1 from rfl),
      if_neg (show ¬((1 : Byte) :: (pc.hash ++ extra)).length < 33 by
        simp only [List.length_cons, List.length_append, hl]; omega)]
    have hdrop : ((1 : Byte) :: (pc.hash ++ extra)).drop 1 = pc.hash ++ extra := rfl
    rw [hdrop, List.take_left' hl]
  | Public o =>
    have ho : o.Valid := h
    have hcons : Commitment.encode (.Public o) ++ extra
        = (2 : Byte) :: (o.encode ++ extra) := by
      simp [Commitment.encode]
    rw [hcons, commitment_decode_cons,
      if_neg (show ¬((2 : Byte) : Byte).val = 1 by decide),
      if_pos (show ((2 : Byte) : Byte).val = 2 from rfl),
      output_decode_encode o ho extra]

theorem nullifier_decode_encode (n : Nullifier) (h : n.Valid) (extra : List Byte) :
    Nullifier.decode (n.encode ++ extra) = .ok n := by
  cases n with
  | Private hh =>
    have hl : hh.length = 32 := h
    have hcons : Nullifier.encode (.Private hh) ++ extra
        = (1 : Byte) :: (hh ++ extra) := by
      simp [Nullifier.encode]
    rw [hcons, nullifier_decode_cons, if_pos (show ((1 : Byte) : Byte).val = 1 from rfl),
      if_neg (show ¬((1 : Byte) :: (hh ++ extra)).length < 33 by
        simp only [List.length_cons, List.length_append, hl]; omega)]
    have hdrop : ((1 : Byte) :: (hh ++ extra)).drop 1 = hh ++ extra := rfl
    rw [hdrop, List.take_left' hl]
  | Public oid =>
    have ho : oid.Valid := h
    have hcons : Nullifier.encode (.Public oid) ++ extra
        = (2 : Byte) :: (oid.encode ++ extra) := by
      simp [Nullifier.encode]
    rw [hcons, nullifier_decode_cons,
      if_neg (show ¬((2 : Byte) : Byte).val = 1 by decide),
      if_pos (show ((2 : Byte) : Byte).val = 2 from rfl),
      outputId_decode_encode oid ho extra]

theorem decodeNullifiers_encodeList (ns : List Nullifier) (h : ∀ n ∈ ns, n.Valid)
    (rest : List Byte) :
    decodeNullifiers ns.length (encodeList Nullifier.encode ns ++ rest) = .ok (ns, rest) := by
  induction ns generalizing rest with
  | nil => simp [decodeNullifiers, encodeList]
  | cons n ns ih =>
    have hn : n.Valid := h n (by simp)
    have hns : ∀ m ∈ ns, m.Valid := fun m hm => h m (by simp [hm])
    have hshape : encodeList Nullifier.encode (n :: ns) ++ rest
        = n.encode ++ (encodeList Nullifier.encode ns ++ rest) := by
      simp [encodeList]
    have hdrop : (n.encode ++ (encodeList Nullifier.encode ns ++ rest)).drop n.byte_length
        = encodeList Nullifier.encode ns ++ rest :=
      List.drop_left' (nullifier_encode_length hn)
    rw [hshape]
    simp only [List.length_cons, decodeNullifiers, nullifier_decode_encode n hn,
      hdrop, ih hns]

theorem decodeCommitments_encodeList (cs : List Commitment) (h : ∀ c ∈ cs, c.Valid)
    (rest : List Byte) :
    decodeCommitments cs.length (encodeList Commitment.encode cs ++ rest) = .ok (cs, rest) := by
  induction cs generalizing rest with
  | nil => simp [decodeCommitments, encodeList]
  | cons c cs ih =>
    have hc : c.Valid := h c (by simp)
    have hcs : ∀ m ∈ cs, m.Valid := fun m hm => h m (by simp [hm])
    have hshape : encodeList Commitment.encode (c :: cs) ++ rest
        = c.encode ++ (encodeList Commitment.encode cs ++ rest) := by
      simp [encodeList]
    have hdrop : (c.encode ++ (encodeList Commitment.encode cs ++ rest)).drop c.byte_length
        = encodeList Commitment.encode cs ++ rest :=
      List.drop_left' (commitment_encode_length hc)
    rw [hshape]
    simp only [List.length_cons, decodeCommitments, commitment_decode_encode c hc,
      hdrop, ih hcs]

theorem transaction_decode_encode (t : Transaction) (h : t.Valid) (extra : List Byte) :
    Transaction.decode (t.encode ++ extra) = .ok t := by
  obtain ⟨hi, ho, hvi, hvo⟩ := h
  have h2i : (natToBE 2 (t.inputs.length % 2 ^ 16)).length = 2 := natToBE_length _ _
  have h2o : (natToBE 2 (t.outputs.length % 2 ^ 16)).length = 2 := natToBE_length _ _
  have hshape : t.encode ++ extra
      = natToBE 2 (t.inputs.length % 2 ^ 16)
        ++ (encodeList Nullifier.encode t.inputs
          ++ (natToBE 2 (t.outputs.length % 2 ^ 16)
            ++ (encodeList Commitment.encode t.outputs ++ extra))) := by
    simp [Transaction.encode]
  have hbe1 : beToNat (natToBE 2 (t.inputs.length % 2 ^ 16)) = t.inputs.length := by
    have hlt : t.inputs.length % 2 ^ 16 < 256 ^ 2 := by
      have := Nat.mod_lt t.inputs.length (show 0 < 2 ^ 16 by norm_num)
      norm_num at this ⊢; omega
    rw [beToNat_natToBE_of_lt hlt, Nat.mod_eq_of_lt (by omega)]
  have hbe2 : beToNat (natToBE 2 (t.outputs.length % 2 ^ 16)) = t.outputs.length := by
    have hlt : t.outputs.length % 2 ^ 16 < 256 ^ 2 := by
      have := Nat.mod_lt t.outputs.length (show 0 < 2 ^ 16 by norm_num)
      norm_num at this ⊢; omega
    rw [beToNat_natToBE_of_lt hlt, Nat.mod_eq_of_lt (by omega)]
  have hA : ¬ (t.encode ++ extra).length < 2 := by
    rw [hshape]; simp only [List.length_append, h2i]; omega
  have htake1 : (t.encode ++ extra).take 2 = natToBE 2 (t.inputs.length % 2 ^ 16) := by
    rw [hshape, List.take_left' h2i]
  have hdrop1 : (t.encode ++ extra).drop 2
      = encodeList Nullifier.encode t.inputs
        ++ (natToBE 2 (t.outputs.length % 2 ^ 16)
          ++ (encodeList Commitment.encode t.outputs ++ extra)) := by
    rw [hshape, List.drop_left' h2i]
  have hdec1 : decodeNullifiers t.inputs.length
      (encodeList Nullifier.encode t.inputs
        ++ (natToBE 2 (t.outputs.length % 2 ^ 16)
          ++ (encodeList Commitment.encode t.outputs ++ extra)))
      = .ok (t.inputs, natToBE 2 (t.outputs.length % 2 ^ 16)
          ++ (encodeList Commitment.encode t.outputs ++ extra)) :=
    decodeNullifiers_encodeList t.inputs hvi _
  have hB : ¬ (natToBE 2 (t.outputs.length % 2 ^ 16)
      ++ (encodeList Commitment.encode t.outputs ++ extra)).length < 2 := by
    simp only [List.length_append, h2o]; omega
  have htake2 : (natToBE 2 (t.outputs.length % 2 ^ 16)
      ++ (encodeList Commitment.encode t.outputs ++ extra)).take 2
      = natToBE 2 (t.outputs.length % 2 ^ 16) := List.take_left' h2o
  have hdrop2 : (natToBE 2 (t.outputs.length % 2 ^ 16)
      ++ (encodeList Commitment.encode t.outputs ++ extra)).drop 2
      = encodeList Commitment.encode t.outputs ++ extra := List.drop_left' h2o
  have hdec2 : decodeCommitments t.outputs.length
      (encodeList Commitment.encode t.outputs ++ extra) = .ok (t.outputs, extra) :=
    decodeCommitments_encodeList t.outputs hvo _
  simp only [Transaction.decode, if_neg hA, htake1, hbe1, hdrop1, hdec1,
    if_neg hB, htake2, hbe2, hdrop2, hdec2]

theorem unencryptedOutput_decode_encode (u : UnencryptedOutput) (h : u.Valid) :
    UnencryptedOutput.decode u.encode = .ok u := by
  obtain ⟨hov, hs⟩ := h
  have hd : Output.decode (u.output.encode ++ u.salt) = .ok u.output :=
    output_decode_encode _ hov _
  have hdrop : (u.output.encode ++ u.salt).drop 84 = u.salt :=
    List.drop_left' (output_encode_length hov)
  simp only [UnencryptedOutput.decode, UnencryptedOutput.encode, hd,
    Output.byte_length, hdrop, if_pos hs]

theorem decodeNullifiers_error (count : Nat) (bs : List Byte) (e : Error)
    (hr : decodeNullifiers count bs = .error e) :
    ∃ k, Nullifier.decode (bs.drop k) = .error e := by
  induction count generalizing bs with
  | zero => simp [decodeNullifiers] at hr
  | succ c ih =>
    cases hd : Nullifier.decode bs with
    | error e1 =>
      simp only [decodeNullifiers, hd, Except.error.injEq] at hr
      exact ⟨0, by rw [List.drop_zero, hd, hr]⟩
    | ok input =>
      simp only [decodeNullifiers, hd] at hr
      cases hrec : decodeNullifiers c (bs.drop input.byte_length) with
      | error e2 =>
        simp only [hrec, Except.error.injEq] at hr
        obtain ⟨k, hk⟩ := ih (bs.drop input.byte_length) (by rw [hrec, hr])
        exact ⟨input.byte_length + k, by rwa [← List.drop_drop]⟩
      | ok pr =>
        obtain ⟨rest, rem⟩ := pr
        simp only [hrec] at hr
        exact Except.noConfusion hr

theorem decodeCommitments_error (count : Nat) (bs : List Byte) (e : Error)
    (hr : decodeCommitments count bs = .error e) :
    ∃ k, Commitment.decode (bs.drop k) = .error e := by
  induction count generalizing bs with
  | zero => simp [decodeCommitments] at hr
  | succ c ih =>
    cases hd : Commitment.decode bs with
    | error e1 =>
      simp only [decodeCommitments, hd, Except.error.injEq] at hr
      exact ⟨0, by rw [List.drop_zero, hd, hr]⟩
    | ok output =>
      simp only [decodeCommitments, hd] at hr
      cases hrec : decodeCommitments c (bs.drop output.byte_length) with
      | error e2 =>
        simp only [hrec, Except.error.injEq] at hr
        obtain ⟨k, hk⟩ := ih (bs.drop output.byte_length) (by rw [hrec, hr])
        exact ⟨output.byte_length + k, by rwa [← List.drop_drop]⟩
      | ok pr =>
        obtain ⟨rest, rem⟩ := pr
        simp only [hrec] at hr
        exact Except.noConfusion hr

theorem decodeNullifiers_rem (count : Nat) (bs : List Byte) (ns : List Nullifier)
    (rem : List Byte) (hr : decodeNullifiers count bs = .ok (ns, rem)) :
    ∃ k, rem = bs.drop k := by
  induction count generalizing bs ns with
  | zero =>
    simp only [decodeNullifiers, Except.ok.injEq, Prod.mk.injEq] at hr
    exact ⟨0, by rw [List.drop_zero, hr.2]⟩
  | succ c ih =>
    cases hd : Nullifier.decode bs with
    | error e1 =>
      simp only [decodeNullifiers, hd] at hr
      exact Except.noConfusion hr
    | ok input =>
      simp only [decodeNullifiers, hd] at hr
      cases hrec : decodeNullifiers c (bs.drop input.byte_length) with
      | error e2 =>
        simp only [hrec] at hr
        exact Except.noConfusion hr
      | ok pr =>
        obtain ⟨rest, rem2⟩ := pr
        simp only [hrec, Except.ok.injEq, Prod.mk.injEq] at hr
        rw [hr.2] at hrec
        obtain ⟨k, hk⟩ := ih (bs.drop input.byte_length) rest hrec
        exact ⟨input.byte_length + k, by rw [hk, List.drop_drop]⟩

theorem decodeNullifiers_succ (count : Nat) (bs : List Byte) :
    decodeNullifiers (count + 1) bs
      = match Nullifier.decode bs with
        | .error e => .error e
        | .ok input =>
          match decodeNullifiers count (bs.drop input.byte_length) with
          | .error e => .error e
          | .ok (rest, rem) => .ok (input :: rest, rem) := rfl

theorem decodeCommitments_succ (count : Nat) (bs : List Byte) :
    decodeCommitments (count + 1) bs
      = match Commitment.decode bs with
        | .error e => .error e
        | .ok output =>
          match decodeCommitments count (bs.drop output.byte_length) with
          | .error e => .error e
          | .ok (rest, rem) => .ok (output :: rest, rem) := rfl

theorem decodeNullifiers_fail (ns : List Nullifier) (h : ∀ n ∈ ns, n.Valid)
    (m : Nat) (bad : List Byte) (e : Error) (hbad : Nullifier.decode bad = .error e) :
    decodeNullifiers (ns.length + m + 1) (encodeList Nullifier.encode ns ++ bad)
      = .error e := by
  induction ns with
  | nil =>
    simp only [encodeList, List.nil_append, List.length_nil, Nat.zero_add]
    simp only [decodeNullifiers, hbad]
  | cons n ns ih =>
    have hn : n.Valid := h n (by simp)
    have hns : ∀ x ∈ ns, x.Valid := fun x hx => h x (by simp [hx])
    have hshape : encodeList Nullifier.encode (n :: ns) ++ bad
        = n.encode ++ (encodeList Nullifier.encode ns ++ bad) := by
      simp [encodeList]
    have hdrop : (n.encode ++ (encodeList Nullifier.encode ns ++ bad)).drop n.byte_length
        = encodeList Nullifier.encode ns ++ bad :=
      List.drop_left' (nullifier_encode_length hn)
    have hcount : (n :: ns).length + m + 1 = (ns.length + m + 1) + 1 := by
      simp [List.length_cons]; omega
    rw [hshape, hcount]
    simp only [decodeNullifiers, nullifier_decode_encode n hn, hdrop]
    rw [← decodeNullifiers_succ, ih hns]

theorem decodeCommitments_fail (cs : List Commitment) (h : ∀ c ∈ cs, c.Valid)
    (m : Nat) (bad : List Byte) (e : Error) (hbad : Commitment.decode bad = .error e) :
    decodeCommitments (cs.length + m + 1) (encodeList Commitment.encode cs ++ bad)
      = .error e := by
  induction cs with
  | nil =>
    simp only [encodeList, List.nil_append, List.length_nil, Nat.zero_add]
    simp only [decodeCommitments, hbad]
  | cons c cs ih =>
    have hc : c.Valid := h c (by simp)
    have hcs : ∀ x ∈ cs, x.Valid := fun x hx => h x (by simp [hx])
    have hshape : encodeList Commitment.encode (c :: cs) ++ bad
        = c.encode ++ (encodeList Commitment.encode cs ++ bad) := by
      simp [encodeList]
    have hdrop : (c.encode ++ (encodeList Commitment.encode cs ++ bad)).drop c.byte_length
        = encodeList Commitment.encode cs ++ bad :=
      List.drop_left' (commitment_encode_length hc)
    have hcount : (c :: cs).length + m + 1 = (cs.length + m + 1) + 1 := by
      simp [List.length_cons]; omega
    rw [hshape, hcount]
    simp only [decodeCommitments, commitment_decode_encode c hc, hdrop]
    rw [← decodeCommitments_succ, ih hcs]

theorem decodeNullifiers_length (count : Nat) :
    ∀ (bs : List Byte) (ns : List Nullifier) (rem : List Byte),
      decodeNullifiers count bs = .ok (ns, rem) → ns.length = count := by
  induction count with
  | zero =>
    intro bs ns rem hr
    simp only [decodeNullifiers, Except.ok.injEq, Prod.mk.injEq] at hr
    rw [← hr.1]; rfl
  | succ c ih =>
    intro bs ns rem hr
    cases hd : Nullifier.decode bs with
    | error e =>
      simp only [decodeNullifiers, hd] at hr
      exact Except.noConfusion hr
    | ok input =>
      simp only [decodeNullifiers, hd] at hr
      cases hrec : decodeNullifiers c (bs.drop input.byte_length) with
      | error e =>
        simp only [hrec] at hr
        exact Except.noConfusion hr
      | ok pr =>
        obtain ⟨rest, rem2⟩ := pr
        simp only [hrec, Except.ok.injEq, Prod.mk.injEq] at hr
        rw [← hr.1]
        simp [ih _ _ _ hrec]

theorem decodeCommitments_length (count : Nat) :
    ∀ (bs : List Byte) (cs : List Commitment) (rem : List Byte),
      decodeCommitments count bs = .ok (cs, rem) → cs.length = count := by
  induction count with
  | zero =>
    intro bs cs rem hr
    simp only [decodeCommitments, Except.ok.injEq, Prod.mk.injEq] at hr
    rw [← hr.1]; rfl
  | succ c ih =>
    intro bs cs rem hr
    cases hd : Commitment.decode bs with
    | error e =>
      simp only [decodeCommitments, hd] at hr
      exact Except.noConfusion hr
    | ok output =>
      simp only [decodeCommitments, hd] at hr
      cases hrec : decodeCommitments c (bs.drop output.byte_length) with
      | error e =>
        simp only [hrec] at hr
        exact Except.noConfusion hr
      | ok pr =>
        obtain ⟨rest, rem2⟩ := pr
        simp only [hrec, Except.ok.injEq, Prod.mk.injEq] at hr
        rw [← hr.1]
        simp [ih _ _ _ hrec]

theorem beToNat_take2_lt (l : List Byte) : beToNat (l.take 2) < 65536 := by
  have h1 := beToNat_lt (l.take 2)
  have h2 : (l.take 2).length ≤ 2 := List.length_take_le _ _
  have h3 : (256 : Nat) ^ (l.take 2).length ≤ 256 ^ 2 :=
    Nat.pow_le_pow_right (by norm_num) h2
  have h4 : (256 : Nat) ^ 2 = 65536 := by norm_num
  omega

theorem Transaction.decode_ok_lengths (bs : List Byte) (t : Transaction)
    (hr : Transaction.decode bs = .ok t) :
    t.inputs.length < 65536 ∧ t.outputs.length < 65536 := by
  by_cases h1 : bs.length < 2
  · simp only [Transaction.decode, if_pos h1] at hr
    exact Except.noConfusion hr
  · simp only [Transaction.decode, if_neg h1] at hr
    cases hd1 : decodeNullifiers (beToNat (bs.take 2)) (bs.drop 2) with
    | error e =>
      simp only [hd1] at hr
      exact Except.noConfusion hr
    | ok pr =>
      obtain ⟨inputs, rem⟩ := pr
      simp only [hd1] at hr
      by_cases h2 : rem.length < 2
      · simp only [if_pos h2] at hr
        exact Except.noConfusion hr
      · simp only [if_neg h2] at hr
        cases hd2 : decodeCommitments (beToNat (rem.take 2)) (rem.drop 2) with
        | error e =>
          simp only [hd2] at hr
          exact Except.noConfusion hr
        | ok pr2 =>
          obtain ⟨outputs, rem2⟩ := pr2
          simp only [hd2, Except.ok.injEq] at hr
          have hlen1 : inputs.length = beToNat (bs.take 2) :=
            decodeNullifiers_length _ _ _ _ hd1
          have hlen2 : outputs.length = beToNat (rem.take 2) :=
            decodeCommitments_length _ _ _ _ hd2
          have hb1 := beToNat_take2_lt bs
          have hb2 := beToNat_take2_lt rem
          rw [← hr]
          exact ⟨by simp only [hlen1]; omega, by simp only [hlen2]; omega⟩

theorem Transaction.decode_error_cases (bs : List Byte) (e : Error)
    (hr : Transaction.decode bs = .error e) :
    e = .FailedToDecode
    ∨ (∃ k, Nullifier.decode (bs.drop k) = .error e)
    ∨ (∃ k, Commitment.decode (bs.drop k) = .error e) := by
  by_cases h1 : bs.length < 2
  · left
    simp only [Transaction.decode, if_pos h1, Except.error.injEq] at hr
    exact hr.symm
  · simp only [Transaction.decode, if_neg h1] at hr
    cases hd1 : decodeNullifiers (beToNat (bs.take 2)) (bs.drop 2) with
    | error e1 =>
      simp only [hd1, Except.error.injEq] at hr
      right; left
      obtain ⟨k, hk⟩ := decodeNullifiers_error _ _ _ (by rw [hd1, hr])
      exact ⟨2 + k, by rw [← List.drop_drop]; exact hk⟩
    | ok pr =>
      obtain ⟨inputs, rem⟩ := pr
      simp only [hd1] at hr
      by_cases h2 : rem.length < 2
      · left
        simp only [if_pos h2, Except.error.injEq] at hr
        exact hr.symm
      · simp only [if_neg h2] at hr
        cases hd2 : decodeCommitments (beToNat (rem.take 2)) (rem.drop 2) with
        | error e2 =>
          simp only [hd2, Except.error.injEq] at hr
          right; right
          obtain ⟨k, hk⟩ := decodeCommitments_error _ _ _ (by rw [hd2, hr])
          obtain ⟨k2, hk2⟩ := decodeNullifiers_rem _ _ _ _ hd1
          have hdr : (rem.drop 2).drop k = bs.drop (2 + k2 + 2 + k) := by
            rw [hk2, List.drop_drop, List.drop_drop, List.drop_drop]
            congr 1
            omega
          exact ⟨2 + k2 + 2 + k, by rw [← hdr]; exact hk⟩
        | ok pr2 =>
          obtain ⟨outputs, rem2⟩ := pr2
          simp only [hd2] at hr
          exact Except.noConfusion hr

theorem encodeList_length_nullifiers (ns : List Nullifier) (h : ∀ n ∈ ns, n.Valid) :
    (encodeList Nullifier.encode ns).length = (ns.map Nullifier.byte_length).sum := by
  induction ns with
  | nil => simp [encodeList]
  | cons n ns ih =>
    simp [encodeList, nullifier_encode_length (h n (by simp)),
      ih (fun x hx => h x (by simp [hx]))]

theorem encodeList_length_commitments (cs : List Commitment) (h : ∀ c ∈ cs, c.Valid) :
    (encodeList Commitment.encode cs).length = (cs.map Commitment.byte_length).sum := by
  induction cs with
  | nil => simp [encodeList]
  | cons c cs ih =>
    simp [encodeList, commitment_encode_length (h c (by simp)),
      ih (fun x hx => h x (by simp [hx]))]

theorem Output.commitment_digest (D : List Byte → List Byte)
    (hD : ∀ l, (D l).length = 32) (o : Output) (salt : List Byte) :
    o.commitment D salt
      = some ⟨D (natToBE 32 o.amount ++ o.asset ++ o.owner ++ salt)⟩ := by
  simp [Output.commitment, Hasher.new, Hasher.update, Hasher.finalize,
    H256.from_slice, hD, List.append_assoc]

theorem PrivateCommitment.nullifier_digest (D : List Byte → List Byte)
    (hD : ∀ l, (D l).length = 32) (c : PrivateCommitment) (salt : List Byte) :
    c.nullifier D salt = some (D (c.hash ++ salt)) := by
  simp [PrivateCommitment.nullifier, Hasher.new, Hasher.update, Hasher.finalize,
    H256.from_slice, hD]

/-- C1: for every valid value `x` of type `Output`, `Commitment`, `OutputId`,
`Nullifier`, `Transaction` (at most 65535 inputs and at most 65535 outputs),
or `UnencryptedOutput`, `decode (encode x)` succeeds and returns `x`. -/
theorem claim_C1 :
    (∀ o : Output, o.Valid → Output.decode o.encode = .ok o)
    ∧ (∀ c : Commitment, c.Valid → Commitment.decode c.encode = .ok c)
    ∧ (∀ oid : OutputId, oid.Valid → OutputId.decode oid.encode = .ok oid)
    ∧ (∀ n : Nullifier, n.Valid → Nullifier.decode n.encode = .ok n)
    ∧ (∀ t : Transaction, t.Valid → Transaction.decode t.encode = .ok t)
    ∧ (∀ u : UnencryptedOutput, u.Valid →
        UnencryptedOutput.decode u.encode = .ok u) := by
  refine ⟨fun o h => ?_, fun c h => ?_, fun oid h => ?_, fun n h => ?_, fun t h => ?_,
    fun u h => unencryptedOutput_decode_encode u h⟩
  · simpa using output_decode_encode o h []
  · simpa using commitment_decode_encode c h []
  · simpa using outputId_decode_encode oid h []
  · simpa using nullifier_decode_encode n h []
  · simpa using transaction_decode_encode t h []

/-- Witness for C1 at concrete sample values. -/
theorem claim_C1_witness :
    Output.decode oSample.encode = .ok oSample
    ∧ Commitment.decode cSample.encode = .ok cSample
    ∧ OutputId.decode oidSample.encode = .ok oidSample
    ∧ Nullifier.decode nSample.encode = .ok nSample
    ∧ Transaction.decode (Transaction.encode ⟨[], []⟩) = .ok ⟨[], []⟩
    ∧ UnencryptedOutput.decode uSample.encode = .ok uSample :=
  ⟨claim_C1.1 oSample (by decide), claim_C1.2.1 cSample (by decide),
   claim_C1.2.2.1 oidSample (by decide), claim_C1.2.2.2.1 nSample (by decide),
   claim_C1.2.2.2.2.1 ⟨[], []⟩ (by decide), claim_C1.2.2.2.2.2 uSample (by decide)⟩

/-- C2: the claim that decode returns `FailedToDecode` (and never panics) on
every buffer shorter than the entity's shape requires fails for
`UnencryptedOutput`: an 84-byte buffer ends before the 32-byte salt, yet the
code panics in `H256::from_slice` instead of returning the typed error. -/
theorem claim_C2_failing :
    UnencryptedOutput.decode (List.replicate 84 (0 : Byte)) = .panics := by rfl

/-- C3: `byte_length` equals the encoded length for `Output`, `Commitment`,
`OutputId`, `Nullifier`; for `Transaction` it is the sum of the element byte
lengths, which is the encoded length minus the four count-prefix bytes. -/
theorem claim_C3 :
    (∀ o : Output, o.Valid → o.byte_length = o.encode.length)
    ∧ (∀ c : Commitment, c.Valid → c.byte_length = c.encode.length)
    ∧ (∀ oid : OutputId, oid.Valid → oid.byte_length = oid.encode.length)
    ∧ (∀ n : Nullifier, n.Valid → n.byte_length = n.encode.length)
    ∧ (∀ t : Transaction, t.Valid →
        t.byte_length
          = (t.inputs.map Nullifier.byte_length).sum
            + (t.outputs.map Commitment.byte_length).sum
        ∧ t.encode.length = t.byte_length + 4) := by
  refine ⟨fun o h => (output_encode_length h).symm,
    fun c h => (commitment_encode_length h).symm,
    fun oid h => (outputId_encode_length h).symm,
    fun n h => (nullifier_encode_length h).symm,
    fun t h => ⟨rfl, ?_⟩⟩
  obtain ⟨hi, ho, hvi, hvo⟩ := h
  simp only [Transaction.encode, Transaction.byte_length, List.length_append,
    natToBE_length, encodeList_length_nullifiers t.inputs hvi,
    encodeList_length_commitments t.outputs hvo]
  omega

/-- Witness for C3 at concrete sample values. -/
theorem claim_C3_witness :
    Output.byte_length oSample = oSample.encode.length
    ∧ Commitment.byte_length cSample = cSample.encode.length
    ∧ OutputId.byte_length oidSample = oidSample.encode.length
    ∧ Nullifier.byte_length nSample = nSample.encode.length
    ∧ (Transaction.byte_length tSample
        = (tSample.inputs.map Nullifier.byte_length).sum
          + (tSample.outputs.map Commitment.byte_length).sum
       ∧ tSample.encode.length = tSample.byte_length + 4) :=
  ⟨claim_C3.1 oSample (by decide), claim_C3.2.1 cSample (by decide),
   claim_C3.2.2.1 oidSample (by decide), claim_C3.2.2.2.1 nSample (by decide),
   claim_C3.2.2.2.2 tSample (by decide)⟩

/-- C4: for every non-empty buffer whose first byte is neither 1 nor 2 and any
trailing bytes, `Commitment::decode` fails with `UnsupportedCommitmentType`
and `Nullifier::decode` fails with `UnsupportedNullifierType`. -/
theorem claim_C4 (b : Byte) (rest : List Byte) (h1 : b.val ≠ 1) (h2 : b.val ≠ 2) :
    Commitment.decode (b :: rest) = .error .UnsupportedCommitmentType
    ∧ Nullifier.decode (b :: rest) = .error .UnsupportedNullifierType := by
  refine ⟨?_, ?_⟩
  · rw [commitment_decode_cons, if_neg h1, if_neg h2]
  · rw [nullifier_decode_cons, if_neg h1, if_neg h2]

/-- Witness for C4 at tag byte 3. -/
theorem claim_C4_witness :
    Commitment.decode [(3 : Byte)] = .error .UnsupportedCommitmentType
    ∧ Nullifier.decode [(3 : Byte)] = .error .UnsupportedNullifierType :=
  claim_C4 3 [] (by decide) (by decide)

/-- C5: every error produced by `Transaction::decode` is either a count-field
`FailedToDecode` or exactly the error of a `Nullifier`/`Commitment` element
decode at some suffix of the buffer, and conversely a malformed element inside
an otherwise well-formed transaction surfaces that element's exact error (no
partial transaction is returned: the result type carries either a transaction
or an error, never both). -/
theorem claim_C5 :
    (∀ (bs : List Byte) (e : Error), Transaction.decode bs = .error e →
        e = .FailedToDecode
        ∨ (∃ k, Nullifier.decode (bs.drop k) = .error e)
        ∨ (∃ k, Commitment.decode (bs.drop k) = .error e))
    ∧ (∀ (ns : List Nullifier) (bad : List Byte) (e : Error),
        (∀ n ∈ ns, n.Valid) → ns.length + 1 ≤ 65535 →
        Nullifier.decode bad = .error e →
        Transaction.decode
          (natToBE 2 (ns.length + 1) ++ (encodeList Nullifier.encode ns ++ bad))
          = .error e)
    ∧ (∀ (ns : List Nullifier) (cs : List Commitment) (bad : List Byte) (e : Error),
        (∀ n ∈ ns, n.Valid) → (∀ c ∈ cs, c.Valid) →
        ns.length ≤ 65535 → cs.length + 1 ≤ 65535 →
        Commitment.decode bad = .error e →
        Transaction.decode
          (natToBE 2 ns.length ++ (encodeList Nullifier.encode ns
            ++ (natToBE 2 (cs.length + 1) ++ (encodeList Commitment.encode cs ++ bad))))
          = .error e) := by
  refine ⟨fun bs e hr => Transaction.decode_error_cases bs e hr, ?_, ?_⟩
  · intro ns bad e hv hle hbad
    have h2 : (natToBE 2 (ns.length + 1)).length = 2 := natToBE_length _ _
    have h65536 : (256 : Nat) ^ 2 = 65536 := by norm_num
    have hA : ¬ (natToBE 2 (ns.length + 1)
        ++ (encodeList Nullifier.encode ns ++ bad)).length < 2 := by
      simp only [List.length_append, h2]; omega
    have htake : (natToBE 2 (ns.length + 1)
        ++ (encodeList Nullifier.encode ns ++ bad)).take 2
        = natToBE 2 (ns.length + 1) := List.take_left' h2
    have hbe : beToNat (natToBE 2 (ns.length + 1)) = ns.length + 1 :=
      beToNat_natToBE_of_lt (by omega)
    have hdrop : (natToBE 2 (ns.length + 1)
        ++ (encodeList Nullifier.encode ns ++ bad)).drop 2
        = encodeList Nullifier.encode ns ++ bad := List.drop_left' h2
    have hfail : decodeNullifiers (ns.length + 1)
        (encodeList Nullifier.encode ns ++ bad) = .error e := by
      have := decodeNullifiers_fail ns hv 0 bad e hbad
      simpa using this
    simp only [Transaction.decode, if_neg hA, htake, hbe, hdrop, hfail]
  · intro ns cs bad e hvn hvc hn hc hbad
    have h2i : (natToBE 2 ns.length).length = 2 := natToBE_length _ _
    have h2o : (natToBE 2 (cs.length + 1)).length = 2 := natToBE_length _ _
    have h65536 : (256 : Nat) ^ 2 = 65536 := by norm_num
    have hbe1 : beToNat (natToBE 2 ns.length) = ns.length :=
      beToNat_natToBE_of_lt (by omega)
    have hbe2 : beToNat (natToBE 2 (cs.length + 1)) = cs.length + 1 :=
      beToNat_natToBE_of_lt (by omega)
    have hA : ¬ (natToBE 2 ns.length ++ (encodeList Nullifier.encode ns
        ++ (natToBE 2 (cs.length + 1)
          ++ (encodeList Commitment.encode cs ++ bad)))).length < 2 := by
      simp only [List.length_append, h2i]; omega
    have htake1 : (natToBE 2 ns.length ++ (encodeList Nullifier.encode ns
        ++ (natToBE 2 (cs.length + 1)
          ++ (encodeList Commitment.encode cs ++ bad)))).take 2
        = natToBE 2 ns.length := List.take_left' h2i
    have hdrop1 : (natToBE 2 ns.length ++ (encodeList Nullifier.encode ns
        ++ (natToBE 2 (cs.length + 1)
          ++ (encodeList Commitment.encode cs ++ bad)))).drop 2
        = encodeList Nullifier.encode ns
          ++ (natToBE 2 (cs.length + 1) ++ (encodeList Commitment.encode cs ++ bad)) :=
      List.drop_left' h2i
    have hdec1 : decodeNullifiers ns.length
        (encodeList Nullifier.encode ns
          ++ (natToBE 2 (cs.length + 1) ++ (encodeList Commitment.encode cs ++ bad)))
        = .ok (ns, natToBE 2 (cs.length + 1)
            ++ (encodeList Commitment.encode cs ++ bad)) :=
      decodeNullifiers_encodeList ns hvn _
    have hB : ¬ (natToBE 2 (cs.length + 1)
        ++ (encodeList Commitment.encode cs ++ bad)).length < 2 := by
      simp only [List.length_append, h2o]; omega
    have htake2 : (natToBE 2 (cs.length + 1)
        ++ (encodeList Commitment.encode cs ++ bad)).take 2
        = natToBE 2 (cs.length + 1) := List.take_left' h2o
    have hdrop2 : (natToBE 2 (cs.length + 1)
        ++ (encodeList Commitment.encode cs ++ bad)).drop 2
        = encodeList Commitment.encode cs ++ bad := List.drop_left' h2o
    have hfail : decodeCommitments (cs.length + 1)
        (encodeList Commitment.encode cs ++ bad) = .error e := by
      have := decodeCommitments_fail cs hvc 0 bad e hbad
      simpa using this
    simp only [Transaction.decode, if_neg hA, htake1, hbe1, hdrop1, hdec1,
      if_neg hB, htake2, hbe2, hdrop2, hfail]

/-- Witness for C5: a transaction advertising one input whose sole input byte
is the unsupported tag 3 surfaces `UnsupportedNullifierType` unchanged. -/
theorem claim_C5_witness :
    Transaction.decode
      (natToBE 2 1 ++ (encodeList Nullifier.encode [] ++ [(3 : Byte)]))
      = .error .UnsupportedNullifierType := by
  have h := claim_C5.2.1 [] [(3 : Byte)] .UnsupportedNullifierType
    (by simp) (by decide) (by rfl)
  simpa using h

/-- C6 counterexample: for `UnencryptedOutput` the claim fails — appending a
single trailing byte to a valid encoding makes decode panic (in
`H256::from_slice` on the 33-byte tail) rather than succeed. -/
theorem claim_C6_counterexample :
    UnencryptedOutput.decode (uSample.encode ++ [(0 : Byte)]) = .panics := by rfl

/-- C6 (amended): for `Output`, `Commitment`, `OutputId`, `Nullifier` and
`Transaction`, decoding `encode x ++ extra` succeeds with a value reporting
the same `byte_length` as `x` whose re-encoding reproduces `encode x`; for
`UnencryptedOutput` the same holds only with no trailing bytes. -/
theorem claim_C6_amended :
    (∀ o : Output, o.Valid → ∀ extra, ∃ y : Output,
        Output.decode (o.encode ++ extra) = .ok y
        ∧ y.byte_length = o.byte_length ∧ y.encode = o.encode)
    ∧ (∀ c : Commitment, c.Valid → ∀ extra, ∃ y : Commitment,
        Commitment.decode (c.encode ++ extra) = .ok y
        ∧ y.byte_length = c.byte_length ∧ y.encode = c.encode)
    ∧ (∀ oid : OutputId, oid.Valid → ∀ extra, ∃ y : OutputId,
        OutputId.decode (oid.encode ++ extra) = .ok y
        ∧ y.byte_length = oid.byte_length ∧ y.encode = oid.encode)
    ∧ (∀ n : Nullifier, n.Valid → ∀ extra, ∃ y : Nullifier,
        Nullifier.decode (n.encode ++ extra) = .ok y
        ∧ y.byte_length = n.byte_length ∧ y.encode = n.encode)
    ∧ (∀ t : Transaction, t.Valid → ∀ extra, ∃ y : Transaction,
        Transaction.decode (t.encode ++ extra) = .ok y
        ∧ y.byte_length = t.byte_length ∧ y.encode = t.encode)
    ∧ (∀ u : UnencryptedOutput, u.Valid → ∃ y : UnencryptedOutput,
        UnencryptedOutput.decode u.encode = .ok y
        ∧ y.byte_length = u.byte_length ∧ y.encode = u.encode) :=
  ⟨fun o h extra => ⟨o, output_decode_encode o h extra, rfl, rfl⟩,
   fun c h extra => ⟨c, commitment_decode_encode c h extra, rfl, rfl⟩,
   fun oid h extra => ⟨oid, outputId_decode_encode oid h extra, rfl, rfl⟩,
   fun n h extra => ⟨n, nullifier_decode_encode n h extra, rfl, rfl⟩,
   fun t h extra => ⟨t, transaction_decode_encode t h extra, rfl, rfl⟩,
   fun u h => ⟨u, unencryptedOutput_decode_encode u h, rfl, rfl⟩⟩

/-- Witness for the amended C6 at a concrete output and trailing byte. -/
theorem claim_C6_witness :
    ∃ y : Output, Output.decode (oSample.encode ++ [(7 : Byte)]) = .ok y
      ∧ y.byte_length = oSample.byte_length ∧ y.encode = oSample.encode :=
  claim_C6_amended.1 oSample (by decide) [(7 : Byte)]

/-- C7: with any deterministic 32-byte digest, `Output::commitment` hashes the
32-byte big-endian amount, the asset, the owner and the salt in order, and
`PrivateCommitment::nullifier` hashes the commitment hash followed by the
salt. -/
theorem claim_C7 (D : List Byte → List Byte) (hD : ∀ l, (D l).length = 32) :
    (∀ (o : Output) (salt : List Byte),
        o.commitment D salt
          = some ⟨D (natToBE 32 o.amount ++ o.asset ++ o.owner ++ salt)⟩)
    ∧ (∀ (c : PrivateCommitment) (salt : List Byte),
        c.nullifier D salt = some (D (c.hash ++ salt))) :=
  ⟨fun o salt => Output.commitment_digest D hD o salt,
   fun c salt => PrivateCommitment.nullifier_digest D hD c salt⟩

/-- Witness for C7 with the constant all-zero 32-byte digest. -/
theorem claim_C7_witness :
    Output.commitment (fun _ => List.replicate 32 (0 : Byte)) oSample
        (List.replicate 32 9)
      = some ⟨List.replicate 32 (0 : Byte)⟩
    ∧ PrivateCommitment.nullifier (fun _ => List.replicate 32 (0 : Byte)) pcSample
        (List.replicate 32 9)
      = some (List.replicate 32 (0 : Byte)) := by
  have h := claim_C7 (fun _ => List.replicate 32 (0 : Byte)) (fun l => by simp)
  exact ⟨h.1 oSample _, h.2 pcSample _⟩

/-- C8: the empty transaction encodes to the four zero bytes and decodes back,
and every valid transaction round-trips preserving list order and contents. -/
theorem claim_C8 :
    Transaction.encode ⟨[], []⟩ = ([0, 0, 0, 0] : List Byte)
    ∧ Transaction.decode ([0, 0, 0, 0] : List Byte) = .ok ⟨[], []⟩
    ∧ (∀ t : Transaction, t.Valid → Transaction.decode t.encode = .ok t) :=
  ⟨by rfl, by rfl, fun t h => by simpa using transaction_decode_encode t h []⟩

/-- Witness for C8 at a concrete two-input two-output transaction. -/
theorem claim_C8_witness :
    Transaction.decode tSample.encode = .ok tSample :=
  claim_C8.2.2 tSample (by decide)

/-- C9: when a transaction has 65536 or more inputs (or outputs), `encode`
writes the list length modulo 2^16 as the count field while still
concatenating every element's encoding, so `decode (encode t)` cannot return
`t`. -/
theorem claim_C9 (t : Transaction)
    (h : 65536 ≤ t.inputs.length ∨ 65536 ≤ t.outputs.length) :
    t.encode.take 2 = natToBE 2 (t.inputs.length % 2 ^ 16)
    ∧ t.encode
        = natToBE 2 (t.inputs.length % 2 ^ 16) ++ encodeList Nullifier.encode t.inputs
          ++ natToBE 2 (t.outputs.length % 2 ^ 16)
          ++ encodeList Commitment.encode t.outputs
    ∧ Transaction.decode t.encode ≠ .ok t := by
  refine ⟨?_, rfl, ?_⟩
  · have hshape : t.encode
        = natToBE 2 (t.inputs.length % 2 ^ 16)
          ++ (encodeList Nullifier.encode t.inputs
            ++ (natToBE 2 (t.outputs.length % 2 ^ 16)
              ++ encodeList Commitment.encode t.outputs)) := by
      simp [Transaction.encode]
    rw [hshape, List.take_left' (natToBE_length 2 _)]
  · intro heq
    obtain ⟨h1, h2⟩ := Transaction.decode_ok_lengths _ _ heq
    rcases h with h | h <;> omega

/-- Witness for C9 at a transaction of 65536 private nullifier inputs. -/
theorem claim_C9_witness :
    Transaction.decode (Transaction.encode tBig) ≠ .ok tBig := by
  have hlen : tBig.inputs.length = 65536 := by
    rw [show tBig.inputs
        = List.replicate 65536 (Nullifier.Private (List.replicate 32 0)) from rfl]
    exact List.length_replicate _ _
  exact (claim_C9 tBig (Or.inl (by omega))).2.2

/-- C10: `Output::decode` succeeds exactly on buffers of length at least 84
and fails with `FailedToDecode` on shorter ones; `OutputId::decode` succeeds
exactly on buffers of length at least 36 and fails with `FailedToDecode` on
shorter ones. -/
theorem claim_C10 (bs : List Byte) :
    ((∃ o, Output.decode bs = .ok o) ↔ 84 ≤ bs.length)
    ∧ (bs.length < 84 → Output.decode bs = .error .FailedToDecode)
    ∧ ((∃ oid, OutputId.decode bs = .ok oid) ↔ 36 ≤ bs.length)
    ∧ (bs.length < 36 → OutputId.decode bs = .error .FailedToDecode) := by
  refine ⟨⟨?_, ?_⟩, ?_, ⟨?_, ?_⟩, ?_⟩
  · rintro ⟨o, ho⟩
    by_cases h : bs.length < 84
    · simp only [Output.decode, if_pos h] at ho
      exact Except.noConfusion ho
    · omega
  · intro h
    exact ⟨{ amount := beToNat (bs.take 32), asset := (bs.drop 32).take 32,
             owner := (bs.drop 64).take 20 },
      by simp only [Output.decode, if_neg (show ¬ bs.length < 84 by omega)]⟩
  · intro h
    simp only [Output.decode, if_pos h]
  · rintro ⟨oid, ho⟩
    by_cases h : bs.length < 36
    · simp only [OutputId.decode, if_pos h] at ho
      exact Except.noConfusion ho
    · omega
  · intro h
    exact ⟨{ txhash := bs.take 32, index := beToNat ((bs.drop 32).take 4) },
      by simp only [OutputId.decode, if_neg (show ¬ bs.length < 36 by omega)]⟩
  · intro h
    simp only [OutputId.decode, if_pos h]

/-- Witness for C10 at an 84-byte buffer and a 35-byte buffer. -/
theorem claim_C10_witness :
    (∃ o, Output.decode (List.replicate 84 (1 : Byte)) = .ok o)
    ∧ OutputId.decode (List.replicate 35 (1 : Byte)) = .error .FailedToDecode :=
  ⟨(claim_C10 _).1.mpr (by decide), (claim_C10 _).2.2.2 (by decide)⟩
